import Mathlib

/-!
Verification of the retrieval / chunking / indexing / cleaning pipeline of the
financial-analyst RAG repository.

The Python sources are shallowly embedded as executable Lean definitions:

* `src/rag_pipeline/ask.py`     → hit collection, metadata filters, most-recent
  selection (`recencyFold`, `applyRecent`), score sort (`sortDesc`), source list
  (`sourcesOf`), and the overall `engine`.
* `src/embeddings/chunk_docs.py` → `chunk_text` (fuel-indexed loop `chunkAux`).
* `src/embeddings/update_faiss.py` → `updateIndex`.
* `src/preprocess/clean_docs.py` → `clean_one`.

Modelling conventions:
* Python `str` is Lean `String` (or `List Char` for the character-window
  chunker, which slices by index).  `str.strip()` / `str.upper()` are modelled
  by `pyStrip` / `pyUpper` over `Char.isWhitespace` / `Char.toUpper`; the
  claims and counterexamples only exercise ASCII data, where these agree with
  Python.
* Python `None`-able fields are `Option`; Python truthiness of a string value
  (`if m.get("url"): ...`) is "`some u` with `u ≠ \"\"`".
* Similarity scores and search positions are modelled as `Int`.  The engine
  only ever compares scores, so any linear order is faithful; no floating
  point arithmetic is performed.
* `datetime.strptime("%Y-%m-%d")` is abstracted as a parameter
  `pd : String → Option Int` (a parse attempt into a linearly ordered value);
  `parse_date` adds the `if not s` guard from the source.  Parsed dates are
  only compared, exactly as in the source.
* Python `dict` / `collections.defaultdict` preserve insertion order, so the
  `by_url` grouping of ask.py iterates keys in first-occurrence order; this is
  modelled by `dedupFirst` (first-occurrence deduplication) over the hit urls.
-/

/-! ### Small Python-semantics helpers -/

/-- First-occurrence de-duplication with an accumulator of already-seen keys;
models iteration order of a Python `dict` keyed by first insertion
(`dict.fromkeys` and `defaultdict` key order). -/
def dedupFirstAux {α : Type} [DecidableEq α] (seen : List α) : List α → List α
  | [] => []
  | a :: l => if a ∈ seen then dedupFirstAux seen l else a :: dedupFirstAux (a :: seen) l

/-- Keys in order of first occurrence (Python `dict.fromkeys(...)`). -/
def dedupFirst {α : Type} [DecidableEq α] (l : List α) : List α :=
  dedupFirstAux [] l

/-- `str.strip()` on a character list: drop whitespace from both ends. -/
def stripChars (l : List Char) : List Char :=
  ((l.dropWhile Char.isWhitespace).reverse.dropWhile Char.isWhitespace).reverse

/-- `str.strip()` on `String`. -/
def pyStrip (s : String) : String :=
  String.mk (stripChars s.data)

/-- `str.upper()` on `String` (per-character uppercasing). -/
def pyUpper (s : String) : String :=
  String.mk (s.data.map Char.toUpper)

/-- Python `(x or "")` for an optional string: `None` becomes `""`
(and `""` stays `""`). -/
def orEmpty (o : Option String) : String :=
  o.getD ""

/-! ### Data model of `src/preprocess/clean_docs.py` -/

/-- A raw scraped document record (the fields `clean_one` reads). -/
structure RawItem where
  id : Option String
  raw_html : Option String
  ticker : Option String
  source : Option String
  doc_type : Option String
  cik : Option String
  accession : Option String
  filing_date : Option String
  report_date : Option String
  url : Option String
  fetched_at : Option String
deriving DecidableEq

/-- A cleaned document as produced by `clean_one`. -/
structure CleanDoc where
  id : Option String
  text : String
  ticker : Option String
  source : Option String
  doc_type : Option String
  cik : Option String
  accession : Option String
  filing_date : Option String
  report_date : Option String
  url : Option String
  fetched_at : Option String
deriving DecidableEq

/-- `clean_one` from clean_docs.py lines 22-43.  The HTML-to-text extraction
(`html_to_text`, a BeautifulSoup wrapper) is an external collaborator and is
abstracted as the parameter `htmlToText`.  Returns `none` when `raw_html` is
missing/empty or the extracted text is shorter than 200 characters. -/
def clean_one (htmlToText : String → String) (raw : RawItem) : Option CleanDoc :=
  match raw.raw_html with
  | none => none
  | some html =>
    if html = "" then none
    else
      let text := htmlToText html
      if text.length < 200 then none
      else some
        { id := raw.id
          text := text
          ticker := raw.ticker
          source := raw.source
          doc_type := raw.doc_type
          cik := raw.cik
          accession := raw.accession
          filing_date := raw.filing_date
          report_date := raw.report_date
          url := raw.url
          fetched_at := raw.fetched_at }

/-! ### Data model of `src/embeddings/update_faiss.py` -/

/-- A chunk record as stored in the metadata file: `update_faiss.py` reads
`chunk_id` (possibly absent) and `text` (always present on records produced by
chunk_docs.py). -/
structure ChunkRec where
  chunk_id : Option String
  text : String
deriving DecidableEq

/-- The persistent pair of vector index and metadata store.  `V` is the type
of embedding vectors (opaque to the update logic). -/
structure IndexState (V : Type) where
  meta : List ChunkRec
  vecs : List V

/-- The incremental update of update_faiss.py lines 60-75: compute the ids
already present (`set(x.get("chunk_id") for x in meta)`), keep the input chunks
whose id is not present, embed their texts in order (`embed_texts` issues
sequential batches and concatenates one vector per text, modelled as `map emb`)
and append to both the index and the store.  When nothing is new the script
returns early without rewriting the files. -/
def updateIndex {V : Type} (emb : String → V) (st : IndexState V) (chunks : List ChunkRec) :
    IndexState V :=
  let existing := st.meta.map (fun x => x.chunk_id)
  let newItems := chunks.filter (fun c => decide (c.chunk_id ∉ existing))
  if newItems.isEmpty then st
  else
    { meta := st.meta ++ newItems
      vecs := st.vecs ++ newItems.map (fun c => emb c.text) }

/-- The chunks an update appends: exactly the input chunks whose `chunk_id`
is not already present in the store, in input order. -/
def freshChunks {V : Type} (st : IndexState V) (chunks : List ChunkRec) : List ChunkRec :=
  chunks.filter (fun c => decide (c.chunk_id ∉ st.meta.map (fun x => x.chunk_id)))

/-! ### Data model of `src/rag_pipeline/ask.py` -/

/-- The `meta` sub-object of a stored chunk (ask.py reads these four keys,
each possibly absent). -/
structure MetaRec where
  ticker : Option String
  doc_type : Option String
  filing_date : Option String
  url : Option String
deriving DecidableEq

/-- A metadata-store entry: chunk text plus its `meta` sub-object. -/
structure Item where
  text : String
  meta : MetaRec
deriving DecidableEq

/-- A retrieval hit: similarity score paired with the resolved store entry
(ask.py keeps `(score, item, m)` with `m = item.get("meta", {})`). -/
structure Hit where
  score : Int
  item : Item
deriving DecidableEq

/-- The chunk's source url, the grouping key for most-recent selection. -/
def urlOf (h : Hit) : Option String := h.item.meta.url

/-- `parse_date` from ask.py lines 22-28: `None`/empty strings do not parse,
otherwise the `strptime` attempt (abstracted as `pd`) decides; a failure is
`none`, never an error. -/
def parse_date (pd : String → Option Int) : Option String → Option Int
  | none => none
  | some s => if s = "" then none else pd s

/-- The parsed filing date of a hit. -/
def dOf (pd : String → Option Int) (h : Hit) : Option Int :=
  parse_date pd h.item.meta.filing_date

/-- Hit collection from ask.py lines 59-65: walk the `(score, idx)` search
results, skip negative positions (faiss "no match" sentinel), and resolve the
rest positionally in the metadata store. -/
def collectHits (meta : List Item) (results : List (Int × Int)) : List Hit :=
  results.filterMap (fun sr =>
    if sr.2 < 0 then none
    else (meta.get? sr.2.toNat).map (fun it => { score := sr.1, item := it }))

/-- Ticker filter from ask.py lines 68-70: applied only when the flag value is
truthy; compares the uppercased field (missing field read as `""`) with the
stripped-and-uppercased requested value. -/
def tickerFilter (ticker : Option String) (hits : List Hit) : List Hit :=
  match ticker with
  | none => hits
  | some s =>
    if s = "" then hits
    else
      let t := pyUpper (pyStrip s)
      hits.filter (fun h => decide (pyUpper (orEmpty h.item.meta.ticker) = t))

/-- Doc-type filter from ask.py lines 72-74, same policy as the ticker
filter on the `doc_type` field. -/
def docTypeFilter (doc_type : Option String) (hits : List Hit) : List Hit :=
  match doc_type with
  | none => hits
  | some s =>
    if s = "" then hits
    else
      let t := pyUpper (pyStrip s)
      hits.filter (fun h => decide (pyUpper (orEmpty h.item.meta.doc_type) = t))

/-- The recency group of a url key: `by_url[u]`, i.e. the hits with that url
in retrieval order. -/
def groupOf (hits : List Hit) (u : Option String) : List Hit :=
  hits.filter (fun h => decide (urlOf h = u))

/-- The maximum parseable filing date within the recency group of `u`
(`max(dates) if dates else None` in ask.py line 93). -/
def gmax (pd : String → Option Int) (hits : List Hit) (u : Option String) : Option Int :=
  ((groupOf hits u).filterMap (dOf pd)).max?

/-- The group keys of `by_url` in iteration order: Python dicts iterate in
insertion order, i.e. in order of first occurrence among the hits. -/
def keysOf (hits : List Hit) : List (Option String) :=
  dedupFirst (hits.map urlOf)

/-- One iteration of the best-url loop of ask.py lines 89-96: if the group has
a maximum parseable date and it strictly beats the best so far (or there is no
best yet), the group's url becomes the best url. -/
def recencyStep (pd : String → Option Int) (hits : List Hit)
    (acc : Option String × Option Int) (u : Option String) :
    Option String × Option Int :=
  match gmax pd hits u with
  | none => acc
  | some dmx =>
    match acc.2 with
    | none => (u, some dmx)
    | some bd => if bd < dmx then (u, some dmx) else acc

/-- The whole best-url loop of ask.py lines 87-96, starting from
`best_url = None`, `best_date = None`. -/
def recencyFold (pd : String → Option Int) (hits : List Hit) :
    Option String × Option Int :=
  (keysOf hits).foldl (recencyStep pd hits) (none, none)

/-- Most-recent selection, ask.py lines 82-99: when requested, run the best-url
loop and, if the resulting `best_url` is truthy (`if best_url:`), replace the
candidates by that url's group; otherwise leave them unchanged. -/
def applyRecent (pd : String → Option Int) (most_recent : Bool) (hits : List Hit) :
    List Hit :=
  if most_recent then
    match (recencyFold pd hits).1 with
    | none => hits
    | some u => if u = "" then hits else groupOf hits (some u)
  else hits

/-- Insert a hit into a descending-sorted list, after every element with a
strictly greater score and before every element with an equal or smaller one.
Folding this over the hits from the right is the stable descending sort
computed by `sorted(hits, key=lambda x: x[0], reverse=True)` in ask.py
line 102 (ties keep the retrieval order). -/
def insertDesc (x : Hit) : List Hit → List Hit
  | [] => [x]
  | a :: l => if x.score < a.score then a :: insertDesc x l else x :: a :: l

/-- Stable sort by similarity score, descending (ask.py line 102). -/
def sortDesc (l : List Hit) : List Hit :=
  l.foldr insertDesc []

/-- The url of a hit if truthy (`if m.get("url"): sources.append(...)`,
ask.py lines 110-111). -/
def truthyUrl (h : Hit) : Option String :=
  match h.item.meta.url with
  | none => none
  | some u => if u = "" then none else some u

/-- The displayed source list, ask.py lines 104-111 and 137-139: collect the
truthy urls of the returned hits in order, keep the truthy ones again
(`[u for u in sources if u]`), de-duplicate keeping first occurrences
(`dict.fromkeys`), and take the first 5. -/
def sourcesOf (hits : List Hit) : List String :=
  let sources := hits.filterMap truthyUrl
  (dedupFirst (sources.filter (fun u => decide (u ≠ "")))).take 5

/-- Outcome of the retrieval engine: either the early "no matching documents"
return of ask.py lines 76-79 (no chat-completion call is made), or the chunks
plus source urls that ground the synthesizer prompt. -/
inductive AskResult where
  | empty : AskResult
  | answered : List Hit → List String → AskResult
deriving DecidableEq

/-- The retrieval-filter-rank pipeline of `main` in ask.py lines 56-111:
collect hits, apply the optional metadata filters, return `empty` when nothing
survives, otherwise apply most-recent selection, sort by descending score,
truncate to `max_chunks` and pair with the displayed source list. -/
def engine (pd : String → Option Int) (meta : List Item) (results : List (Int × Int))
    (ticker doc_type : Option String) (most_recent : Bool) (max_chunks : Nat) :
    AskResult :=
  let hits := collectHits meta results
  let hits := tickerFilter ticker hits
  let hits := docTypeFilter doc_type hits
  if hits.isEmpty then .empty
  else
    let hits := applyRecent pd most_recent hits
    let final := (sortDesc hits).take max_chunks
    .answered final (sourcesOf final)

/-- Spec-side description of what the most-recent step does with a winning
url value: a truthy winner replaces the candidates with its group, a falsy
one leaves them unchanged. -/
def recencyReplace (hits : List Hit) (w : Option String) : List Hit :=
  match w with
  | none => hits
  | some u => if u = "" then hits else groupOf hits (some u)

/-! ### Model of `chunk_text` from `src/embeddings/chunk_docs.py` -/

/-- The `while start < n` loop of `chunk_text` (chunk_docs.py lines 10-21),
indexed by fuel so the definition is total: each loop iteration consumes one
unit, and `none` means the fuel ran out before the loop finished.  Per
iteration: `end = min(start + chunk_size, n)`, the window `text[start:end]` is
stripped and kept if nonempty, the loop breaks when `end == n`, and otherwise
`start = max(0, end - overlap)` (truncated subtraction on `Nat` is exactly
`max(0, ...)`). -/
def chunkAux (text : List Char) (cs ov : Nat) : Nat → Nat → Option (List (List Char))
  | 0, start => if start < text.length then none else some []
  | fuel + 1, start =>
    if start < text.length then
      let e := min (start + cs) text.length
      let c := stripChars ((text.drop start).take (e - start))
      (if e = text.length then some [] else chunkAux text cs ov fuel (e - ov)).map
        (fun r => if c.isEmpty then r else c :: r)
    else some []

/-- `chunk_text(text, chunk_size, overlap)` with enough fuel for the
terminating case (`text.length + 1` iterations always suffice when
`overlap < chunk_size`). -/
def chunk_text (text : List Char) (cs ov : Nat) : Option (List (List Char)) :=
  chunkAux text cs ov (text.length + 1) 0

/-- Number of fixed windows covering `n` characters when window starts advance
by `step` and each window spans `cs` characters: `0` for empty text, otherwise
one window per `step`-advance until a window reaches the end
(`1 + ceil((n - cs) / step)`). -/
def numWins (cs step n : Nat) : Nat :=
  if n = 0 then 0 else (n - cs + step - 1) / step + 1

/-- Modelled from the spec's chunking-policy words: window `i` starts at
`i * (window - overlap)`, spans up to `window` characters (the final window is
whatever remains, no padding), windows are trimmed, and whitespace-only
windows are dropped. -/
def specChunks (text : List Char) (cs ov : Nat) : List (List Char) :=
  ((List.range (numWins cs (cs - ov) text.length)).map
    (fun i => stripChars ((text.drop (i * (cs - ov))).take cs))).filter
    (fun c => !c.isEmpty)

/-! ### Concrete inputs for witnesses and counterexamples -/

/-- A concrete date parser standing in for `strptime("%Y-%m-%d")`: it parses
the two date literals used in the concrete examples (both of which the real
`strptime` parses) and rejects everything else. -/
def pdEx (s : String) : Option Int :=
  if s = "2024-01-01" then some 1 else if s = "2024-02-01" then some 2 else none

/-- A hit with no url and the later filing date. -/
def hitNoUrl : Hit :=
  { score := 9, item := { text := "a", meta :=
    { ticker := some "AMZN", doc_type := some "8-K",
      filing_date := some "2024-02-01", url := none } } }

/-- A hit with url "u" and the earlier filing date. -/
def hitU : Hit :=
  { score := 5, item := { text := "b", meta :=
    { ticker := some "AMZN", doc_type := some "8-K",
      filing_date := some "2024-01-01", url := some "u" } } }

/-- Counterexample input for most-recent selection: the group with the latest
parseable date is the `None`-url group. -/
def hitsCexC1 : List Hit := [hitNoUrl, hitU]

/-- A hit with url "a" (score 3). -/
def hitA : Hit :=
  { score := 3, item := { text := "ta", meta :=
    { ticker := some "AMZN", doc_type := some "10-K",
      filing_date := some "2024-01-01", url := some "a" } } }

/-- A hit with url "b" (score 7), same filing date as `hitA`. -/
def hitB : Hit :=
  { score := 7, item := { text := "tb", meta :=
    { ticker := some "AMZN", doc_type := some "10-K",
      filing_date := some "2024-01-01", url := some "b" } } }

/-- Tie input for the recency tie-break: two groups with equal max dates. -/
def hitsTie : List Hit := [hitA, hitB]

/-- A hit with a missing (null) ticker field. -/
def hitNullTicker : Hit :=
  { score := 1, item := { text := "t", meta :=
    { ticker := none, doc_type := some "8-K",
      filing_date := none, url := none } } }

/-- A 200-character text (the minimum length `clean_one` keeps). -/
def text200 : String := String.mk (List.replicate 200 'x')

/-- A concrete raw item whose html "extracts" to a 200-character text under
the identity extractor. -/
def rawEx : RawItem :=
  { id := some "d1", raw_html := some text200, ticker := some "AMZN",
    source := some "sec", doc_type := some "8-K", cik := none,
    accession := none, filing_date := some "2024-01-01",
    report_date := none, url := some "u", fetched_at := none }

/-- The cleaned document `clean_one` produces from `rawEx` with the identity
extractor. -/
def cleanedEx : CleanDoc :=
  { id := some "d1", text := text200, ticker := some "AMZN",
    source := some "sec", doc_type := some "8-K", cik := none,
    accession := none, filing_date := some "2024-01-01",
    report_date := none, url := some "u", fetched_at := none }

/-- A concrete index state with one stored chunk (vector modelled as `Nat`). -/
def stEx : IndexState Nat :=
  { meta := [{ chunk_id := some "d1::chunk_0", text := "old" }], vecs := [3] }

/-- A concrete update batch: one already-present id and one new id. -/
def chunksEx : List ChunkRec :=
  [{ chunk_id := some "d1::chunk_0", text := "old" },
   { chunk_id := some "d1::chunk_1", text := "new" }]

/-- Concrete document text for the chunking witnesses. -/
def demoText : List Char := ['a', 'b', ' ', 'c', 'd']

/-- Concrete text on which `chunk_text` with `overlap = chunk_size` loops
forever. -/
def divText : List Char := ['a', 'b', 'c']

/-- A one-entry metadata store for the engine witnesses. -/
def metaEx : List Item :=
  [{ text := "t", meta :=
    { ticker := some "TSLA", doc_type := some "8-K",
      filing_date := none, url := none } }]

/-! ### Helper lemmas: first-occurrence deduplication -/

theorem dedupFirstAux_sublist {α : Type} [DecidableEq α] (l : List α) :
    ∀ seen, List.Sublist (dedupFirstAux seen l) l := by
  induction l with
  | nil => intro seen; simp [dedupFirstAux]
  | cons a l ih =>
    intro seen
    simp only [dedupFirstAux]
    by_cases h : a ∈ seen
    · simpa [h] using (ih seen).trans (List.sublist_cons_self a l)
    · simpa [h] using (ih (a :: seen)).cons₂ a

theorem mem_dedupFirstAux {α : Type} [DecidableEq α] (l : List α) :
    ∀ seen x, x ∈ dedupFirstAux seen l ↔ x ∈ l ∧ x ∉ seen := by
  induction l with
  | nil => intro seen x; simp [dedupFirstAux]
  | cons a l ih =>
    intro seen x
    simp only [dedupFirstAux]
    by_cases h : a ∈ seen
    · rw [if_pos h, ih seen x]
      by_cases hxa : x = a
      · subst hxa; simp [h]
      · simp [hxa]
    · rw [if_neg h]
      by_cases hxa : x = a
      · subst hxa; simp [h]
      · simp [List.mem_cons, hxa, ih (a :: seen) x]

theorem nodup_dedupFirstAux {α : Type} [DecidableEq α] (l : List α) :
    ∀ seen, (dedupFirstAux seen l).Nodup := by
  induction l with
  | nil => intro seen; simp [dedupFirstAux]
  | cons a l ih =>
    intro seen
    simp only [dedupFirstAux]
    by_cases h : a ∈ seen
    · simpa [h] using ih seen
    · rw [if_neg h]
      refine List.nodup_cons.mpr ⟨?_, ih (a :: seen)⟩
      intro hmem
      rcases (mem_dedupFirstAux l (a :: seen) a).mp hmem with ⟨-, hns⟩
      exact hns (List.mem_cons_self a seen)

theorem mem_dedupFirst {α : Type} [DecidableEq α] (l : List α) (x : α) :
    x ∈ dedupFirst l ↔ x ∈ l := by
  simp [dedupFirst, mem_dedupFirstAux]

theorem dedupFirst_sublist {α : Type} [DecidableEq α] (l : List α) :
    List.Sublist (dedupFirst l) l :=
  dedupFirstAux_sublist l []

theorem nodup_dedupFirst {α : Type} [DecidableEq α] (l : List α) :
    (dedupFirst l).Nodup :=
  nodup_dedupFirstAux l []

theorem toFinset_dedupFirst {α : Type} [DecidableEq α] (l : List α) :
    (dedupFirst l).toFinset = l.toFinset := by
  ext x; simp [List.mem_toFinset, mem_dedupFirst]

theorem length_dedupFirst {α : Type} [DecidableEq α] (l : List α) :
    (dedupFirst l).length = l.toFinset.card := by
  rw [← toFinset_dedupFirst, List.toFinset_card_of_nodup (nodup_dedupFirst l)]

/-! ### Helper lemmas: uppercasing -/

theorem pyUpper_eq_empty_iff (s : String) : pyUpper s = "" ↔ s = "" := by
  constructor
  · intro h
    have hd := congrArg String.data h
    simp only [pyUpper] at hd
    apply String.ext
    simpa using hd
  · intro h; subst h; rfl

/-! ### Claim C10: `clean_one` drop policy -/

/-- C10: `clean_one` returns `none` (the document is silently dropped) iff its
`raw_html` is missing or empty, or the extracted cleaned text is shorter than
200 characters; consequently every surviving document has a text of length at
least 200 (namely the extracted text itself). -/
theorem claim_C10 (htmlToText : String → String) (raw : RawItem) :
    (clean_one htmlToText raw = none ↔
      (raw.raw_html = none ∨ raw.raw_html = some "" ∨
        (htmlToText (raw.raw_html.getD "")).length < 200)) ∧
    (∀ d, clean_one htmlToText raw = some d →
      200 ≤ d.text.length ∧ d.text = htmlToText (raw.raw_html.getD "")) := by
  constructor
  · cases hr : raw.raw_html with
    | none => simp [clean_one, hr]
    | some html =>
      by_cases he : html = ""
      · subst he; simp [clean_one, hr]
      · by_cases hl : (htmlToText html).length < 200
        · simp [clean_one, hr, he, hl]
        · simp [clean_one, hr, he, hl]
  · intro d hd
    cases hr : raw.raw_html with
    | none => simp [clean_one, hr] at hd
    | some html =>
      by_cases he : html = ""
      · subst he; simp [clean_one, hr] at hd
      · by_cases hl : (htmlToText html).length < 200
        · simp [clean_one, hr, he, hl] at hd
        · simp only [clean_one, hr, if_neg he, if_neg hl] at hd
          have hd' := Option.some.inj hd
          subst hd'
          exact ⟨Nat.le_of_not_lt hl, rfl⟩

set_option maxRecDepth 8192 in
/-- Witness for C10 at a concrete input: the identity extractor on a raw item
with a 200-character html survives, with text length at least 200. -/
theorem claim_C10_witness : 200 ≤ cleanedEx.text.length :=
  ((claim_C10 (fun s => s) rawEx).2 cleanedEx (by decide)).1

/-! ### Claim C7: incremental index update -/

/-- C7: `updateIndex` appends to the metadata store exactly the input chunks
whose id is not already present (in input order), appends one vector per
appended chunk in the same order, and preserves the store-length =
vector-count invariant. -/
theorem claim_C7 {V : Type} (emb : String → V) (st : IndexState V) (chunks : List ChunkRec) :
    (updateIndex emb st chunks).meta = st.meta ++ freshChunks st chunks ∧
    (updateIndex emb st chunks).vecs
      = st.vecs ++ (freshChunks st chunks).map (fun c => emb c.text) ∧
    List.Sublist (freshChunks st chunks) chunks ∧
    (∀ c ∈ freshChunks st chunks,
      c.chunk_id ∉ st.meta.map (fun x => x.chunk_id)) ∧
    (st.meta.length = st.vecs.length →
      (updateIndex emb st chunks).meta.length = (updateIndex emb st chunks).vecs.length) := by
  have hdef : updateIndex emb st chunks =
      if (freshChunks st chunks).isEmpty then st
      else
        { meta := st.meta ++ freshChunks st chunks
          vecs := st.vecs ++ (freshChunks st chunks).map (fun c => emb c.text) } := rfl
  have hmeta : (updateIndex emb st chunks).meta = st.meta ++ freshChunks st chunks := by
    rw [hdef]
    by_cases h : (freshChunks st chunks).isEmpty
    · rw [if_pos h, List.isEmpty_iff.mp h, List.append_nil]
    · rw [if_neg h]
  have hvecs : (updateIndex emb st chunks).vecs
      = st.vecs ++ (freshChunks st chunks).map (fun c => emb c.text) := by
    rw [hdef]
    by_cases h : (freshChunks st chunks).isEmpty
    · rw [if_pos h, List.isEmpty_iff.mp h, List.map_nil, List.append_nil]
    · rw [if_neg h]
  refine ⟨hmeta, hvecs, List.filter_sublist chunks, ?_, ?_⟩
  · intro c hc
    have := (List.mem_filter.mp hc).2
    exact of_decide_eq_true this
  · intro hlen
    rw [hmeta, hvecs]
    simp [hlen]

/-- Witness for C7 at a concrete input: a one-chunk store updated with one
stale and one fresh chunk keeps store length equal to vector count. -/
theorem claim_C7_witness :
    (updateIndex (fun s => s.length) stEx chunksEx).meta.length
      = (updateIndex (fun s => s.length) stEx chunksEx).vecs.length :=
  (claim_C7 (fun s => s.length) stEx chunksEx).2.2.2.2 (by decide)

/-! ### Helper lemmas: the stable descending sort -/

theorem length_insertDesc (x : Hit) (l : List Hit) :
    (insertDesc x l).length = l.length + 1 := by
  induction l with
  | nil => rfl
  | cons a l ih =>
    simp only [insertDesc]
    by_cases h : x.score < a.score
    · simp [h, ih]
    · simp [h]

theorem mem_insertDesc (x y : Hit) (l : List Hit) :
    y ∈ insertDesc x l ↔ y = x ∨ y ∈ l := by
  induction l with
  | nil => simp [insertDesc]
  | cons a l ih =>
    simp only [insertDesc]
    by_cases h : x.score < a.score
    · rw [if_pos h]
      simp only [List.mem_cons, ih]
      tauto
    · rw [if_neg h]
      simp only [List.mem_cons]

theorem length_sortDesc (l : List Hit) : (sortDesc l).length = l.length := by
  induction l with
  | nil => rfl
  | cons a l ih =>
    show (insertDesc a (sortDesc l)).length = l.length + 1
    rw [length_insertDesc, ih]

theorem pairwise_insertDesc (x : Hit) (l : List Hit)
    (hl : l.Pairwise (fun a b => b.score ≤ a.score)) :
    (insertDesc x l).Pairwise (fun a b => b.score ≤ a.score) := by
  induction l with
  | nil => simp [insertDesc]
  | cons a l ih =>
    rcases List.pairwise_cons.mp hl with ⟨ha, hl'⟩
    simp only [insertDesc]
    by_cases h : x.score < a.score
    · rw [if_pos h]
      refine List.pairwise_cons.mpr ⟨?_, ih hl'⟩
      intro y hy
      rcases (mem_insertDesc x y l).mp hy with rfl | hyl
      · exact h.le
      · exact ha y hyl
    · rw [if_neg h]
      refine List.pairwise_cons.mpr ⟨?_, hl⟩
      intro y hy
      rcases List.mem_cons.mp hy with rfl | hyl
      · exact Int.not_lt.mp h
      · exact (ha y hyl).trans (Int.not_lt.mp h)

theorem pairwise_sortDesc (l : List Hit) :
    (sortDesc l).Pairwise (fun a b => b.score ≤ a.score) := by
  induction l with
  | nil => simp [sortDesc]
  | cons a l ih => exact pairwise_insertDesc a (sortDesc l) ih

theorem filter_insertDesc (s : Int) (x : Hit) (l : List Hit) :
    (insertDesc x l).filter (fun h => decide (h.score = s))
      = if x.score = s then x :: l.filter (fun h => decide (h.score = s))
        else l.filter (fun h => decide (h.score = s)) := by
  induction l with
  | nil => by_cases hx : x.score = s <;> simp [insertDesc, hx]
  | cons a l ih =>
    simp only [insertDesc]
    by_cases h : x.score < a.score
    · rw [if_pos h]
      by_cases hx : x.score = s
      · have ha : ¬ a.score = s := by omega
        simp [List.filter_cons, ha, hx, ih]
      · by_cases ha : a.score = s <;> simp [List.filter_cons, ha, hx, ih]
    · rw [if_neg h]
      by_cases hx : x.score = s <;> simp [List.filter_cons, hx]

theorem filter_sortDesc (s : Int) (l : List Hit) :
    (sortDesc l).filter (fun h => decide (h.score = s))
      = l.filter (fun h => decide (h.score = s)) := by
  induction l with
  | nil => rfl
  | cons a l ih =>
    show (insertDesc a (sortDesc l)).filter _ = _
    rw [filter_insertDesc]
    by_cases ha : a.score = s
    · rw [if_pos ha, ih, List.filter_cons]
      simp [ha]
    · rw [if_neg ha, ih, List.filter_cons]
      simp [ha]

/-! ### Claim C3: sort and truncation -/

/-- C3: the returned sequence — stable descending sort of the candidates,
truncated to `max_chunks` (ask.py line 102) — has length
`min max_chunks |candidates|`, is sorted by descending similarity score, and
candidates with equal scores keep their relative retrieval order: for every
score, the equal-score hits of the output form a sublist of the equal-score
hits of the input, in input order.  `max_chunks : Nat` captures the claim's
`max_chunks ≥ 0`. -/
theorem claim_C3 (hits : List Hit) (max_chunks : Nat) :
    ((sortDesc hits).take max_chunks).length = min max_chunks hits.length ∧
    ((sortDesc hits).take max_chunks).Pairwise (fun a b => b.score ≤ a.score) ∧
    ∀ s : Int, List.Sublist
      (((sortDesc hits).take max_chunks).filter (fun h => decide (h.score = s)))
      (hits.filter (fun h => decide (h.score = s))) := by
  refine ⟨?_, ?_, ?_⟩
  · rw [List.length_take, length_sortDesc]
  · exact (pairwise_sortDesc hits).sublist (List.take_sublist ..)
  · intro s
    rw [← filter_sortDesc s hits]
    exact (List.take_sublist ..).filter _

/-- Witness for C3 at a concrete input. -/
theorem claim_C3_witness :
    ((sortDesc hitsTie).take 1).length = min 1 hitsTie.length :=
  (claim_C3 hitsTie 1).1

/-! ### Claim C6: the displayed source list -/

theorem truthyUrl_ne_empty (h : Hit) (u : String) (hu : truthyUrl h = some u) :
    u ≠ "" := by
  cases hx : h.item.meta.url with
  | none => simp [truthyUrl, hx] at hu
  | some v =>
    by_cases hv : v = ""
    · simp [truthyUrl, hx, hv] at hu
    · simp only [truthyUrl, hx, if_neg hv, Option.some.injEq] at hu
      subst hu
      exact hv

theorem filter_truthy_sources (hits : List Hit) :
    (hits.filterMap truthyUrl).filter (fun u => decide (u ≠ ""))
      = hits.filterMap truthyUrl := by
  apply List.filter_eq_self.mpr
  intro u hu
  rcases List.mem_filterMap.mp hu with ⟨h, -, hh⟩
  exact decide_eq_true (truthyUrl_ne_empty h u hh)

/-- C6: the reported source list takes the non-empty (truthy) urls of the
returned chunks in order of appearance, removes duplicates without consuming
slots (its length is `min 5 (number of distinct truthy urls)`), keeps first
occurrences in order (it is a duplicate-free sublist of the url sequence), and
never contains an empty url, independently of `max_chunks`. -/
theorem claim_C6 (hits : List Hit) :
    (sourcesOf hits).length = min 5 (hits.filterMap truthyUrl).toFinset.card ∧
    (sourcesOf hits).Nodup ∧
    List.Sublist (sourcesOf hits) (hits.filterMap truthyUrl) ∧
    "" ∉ sourcesOf hits := by
  have hsrc : sourcesOf hits = (dedupFirst (hits.filterMap truthyUrl)).take 5 := by
    show (dedupFirst ((hits.filterMap truthyUrl).filter (fun u => decide (u ≠ "")))).take 5
        = (dedupFirst (hits.filterMap truthyUrl)).take 5
    rw [filter_truthy_sources]
  refine ⟨?_, ?_, ?_, ?_⟩
  · rw [hsrc, List.length_take, length_dedupFirst]
  · rw [hsrc]
    exact (nodup_dedupFirst _).sublist (List.take_sublist ..)
  · rw [hsrc]
    exact (List.take_sublist ..).trans (dedupFirst_sublist _)
  · rw [hsrc]
    intro hmem
    have h1 : ("" : String) ∈ dedupFirst (hits.filterMap truthyUrl) :=
      (List.take_sublist ..).mem hmem
    have h2 : ("" : String) ∈ hits.filterMap truthyUrl :=
      (mem_dedupFirst _ _).mp h1
    rcases List.mem_filterMap.mp h2 with ⟨h, -, hh⟩
    exact truthyUrl_ne_empty h "" hh rfl

/-- Witness for C6 at a concrete input. -/
theorem claim_C6_witness :
    (sourcesOf hitsTie).length = min 5 (hitsTie.filterMap truthyUrl).toFinset.card :=
  (claim_C6 hitsTie).1

/-! ### Claim C2: the metadata filters -/

/-- C2 (amended): with both filters supplied and non-empty, a hit survives iff
its uppercased ticker and doc_type fields (missing fields read as `""`) equal
the uppercased *whitespace-stripped* filter values (the two filters are
ANDed), survivors keep retrieval order; and a hit with a missing/empty ticker
field survives a supplied non-empty ticker filter exactly when the stripped
filter value is empty (so a whitespace-only filter retains such hits). -/
theorem claim_C2 (hits : List Hit) (s t : String) (hs : s ≠ "") (ht : t ≠ "") :
    (∀ h, h ∈ docTypeFilter (some t) (tickerFilter (some s) hits) ↔
      (h ∈ hits ∧ pyUpper (orEmpty h.item.meta.ticker) = pyUpper (pyStrip s)
        ∧ pyUpper (orEmpty h.item.meta.doc_type) = pyUpper (pyStrip t))) ∧
    List.Sublist (docTypeFilter (some t) (tickerFilter (some s) hits)) hits ∧
    (∀ h, (h.item.meta.ticker = none ∨ h.item.meta.ticker = some "") →
      (h ∈ tickerFilter (some s) hits ↔ (h ∈ hits ∧ pyStrip s = ""))) := by
  have htk : tickerFilter (some s) hits
      = hits.filter (fun h => decide (pyUpper (orEmpty h.item.meta.ticker) = pyUpper (pyStrip s))) := by
    simp [tickerFilter, hs]
  have hdt : ∀ l, docTypeFilter (some t) l
      = l.filter (fun h => decide (pyUpper (orEmpty h.item.meta.doc_type) = pyUpper (pyStrip t))) := by
    intro l
    simp [docTypeFilter, ht]
  refine ⟨?_, ?_, ?_⟩
  · intro h
    rw [hdt, htk, List.mem_filter, List.mem_filter]
    simp only [decide_eq_true_eq]
    tauto
  · rw [hdt, htk]
    exact (List.filter_sublist _).trans (List.filter_sublist _)
  · intro h hnull
    rw [htk, List.mem_filter]
    have hempty : orEmpty h.item.meta.ticker = "" := by
      rcases hnull with hn | hn <;> rw [hn] <;> rfl
    rw [hempty]
    simp only [decide_eq_true_eq]
    constructor
    · rintro ⟨hmem, hup⟩
      refine ⟨hmem, ?_⟩
      have : pyUpper (pyStrip s) = "" := hup.symm
      exact (pyUpper_eq_empty_iff _).mp this
    · rintro ⟨hmem, hstrip⟩
      exact ⟨hmem, by rw [hstrip]⟩

/-- Witness for C2 at a concrete input: the amended characterization applied
to a one-hit list and the filters "amzn" / "8-k". -/
theorem claim_C2_witness :
    hitU ∈ docTypeFilter (some "8-k") (tickerFilter (some "amzn") [hitU]) :=
  ((claim_C2 [hitU] "amzn" "8-k" (by decide) (by decide)).1 hitU).mpr (by decide)

/-- C2 counterexample: the ticker filter value `" "` is supplied (truthy in
Python, so the filter is applied with `t = " ".strip().upper() = ""`), yet the
hit whose ticker field is null survives it — contradicting the claim that a
hit with a missing ticker never survives a supplied filter. -/
theorem claim_C2_counterexample :
    tickerFilter (some " ") [hitNullTicker] = [hitNullTicker] ∧
    hitNullTicker.item.meta.ticker = none := by
  constructor
  · decide
  · rfl

/-! ### Claim C4: empty result short-circuit -/

theorem tickerFilter_nil (tk : Option String) : tickerFilter tk [] = [] := by
  cases tk with
  | none => rfl
  | some s => by_cases hs : s = "" <;> simp [tickerFilter, hs]

theorem docTypeFilter_nil (dt : Option String) : docTypeFilter dt [] = [] := by
  cases dt with
  | none => rfl
  | some s => by_cases hs : s = "" <;> simp [docTypeFilter, hs]

/-- C4: when filtering eliminates every candidate — in particular when the
index returns only negative (sentinel) positions, which covers the empty
result — the engine returns the `empty` outcome ("no matching documents")
rather than an error, and never reaches the synthesizer call (`empty` is the
early return of ask.py lines 76-79, before the chat-completion request). -/
theorem claim_C4 (pd : String → Option Int) (meta : List Item)
    (results : List (Int × Int)) (ticker doc_type : Option String)
    (most_recent : Bool) (max_chunks : Nat) :
    (docTypeFilter doc_type (tickerFilter ticker (collectHits meta results)) = [] →
      engine pd meta results ticker doc_type most_recent max_chunks = .empty) ∧
    ((∀ r ∈ results, r.2 < 0) →
      engine pd meta results ticker doc_type most_recent max_chunks = .empty) := by
  have hmain : docTypeFilter doc_type (tickerFilter ticker (collectHits meta results)) = [] →
      engine pd meta results ticker doc_type most_recent max_chunks = .empty := by
    intro hfil
    unfold engine
    simp [hfil]
  refine ⟨hmain, ?_⟩
  intro hneg
  apply hmain
  have hcol : collectHits meta results = [] := by
    apply List.filterMap_eq_nil_iff.mpr
    intro r hr
    simp [hneg r hr]
  rw [hcol, tickerFilter_nil, docTypeFilter_nil]

/-- Witness for C4 at a concrete input: a search returning only the faiss
sentinel position `-1` yields the empty outcome. -/
theorem claim_C4_witness :
    engine pdEx metaEx [((5 : Int), (-1 : Int))] none none false 8 = .empty :=
  (claim_C4 pdEx metaEx [((5 : Int), (-1 : Int))] none none false 8).2 (by decide)

/-! ### Helper lemmas: list maxima -/

theorem max?_cons_eq (a : Int) (t : List Int) : (a :: t).max? = some (t.foldl max a) := rfl

theorem foldl_max_mem (l : List Int) (a : Int) : l.foldl max a ∈ a :: l := by
  induction l generalizing a with
  | nil => simp
  | cons b l ih =>
    show l.foldl max (max a b) ∈ a :: b :: l
    rcases List.mem_cons.mp (ih (max a b)) with h | h
    · rw [h]
      rcases max_choice a b with hm | hm <;> rw [hm]
      · exact List.mem_cons_self ..
      · exact List.mem_cons.mpr (Or.inr (List.mem_cons_self ..))
    · exact List.mem_cons.mpr (Or.inr (List.mem_cons.mpr (Or.inr h)))

theorem le_foldl_max (l : List Int) (a : Int) : ∀ x ∈ a :: l, x ≤ l.foldl max a := by
  induction l generalizing a with
  | nil =>
    intro x hx
    rcases List.mem_cons.mp hx with rfl | h
    · exact le_refl x
    · simp at h
  | cons b l ih =>
    intro x hx
    show x ≤ l.foldl max (max a b)
    rcases List.mem_cons.mp hx with h | hx'
    · rw [h]
      exact le_trans (le_max_left a b) (ih (max a b) _ (List.mem_cons_self ..))
    · rcases List.mem_cons.mp hx' with h | hx''
      · rw [h]
        exact le_trans (le_max_right a b) (ih (max a b) _ (List.mem_cons_self ..))
      · exact ih (max a b) x (List.mem_cons.mpr (Or.inr hx''))

theorem max?_eq_some_of (l : List Int) (M : Int) (hmem : M ∈ l)
    (hub : ∀ x ∈ l, x ≤ M) : l.max? = some M := by
  cases l with
  | nil => simp at hmem
  | cons a t =>
    rw [max?_cons_eq]
    congr 1
    exact le_antisymm (hub _ (foldl_max_mem t a)) (le_foldl_max t a M hmem)

theorem of_max?_eq_some (l : List Int) (M : Int) (h : l.max? = some M) :
    M ∈ l ∧ ∀ x ∈ l, x ≤ M := by
  cases l with
  | nil => simp [List.max?] at h
  | cons a t =>
    rw [max?_cons_eq] at h
    have hM := Option.some.inj h
    rw [← hM]
    exact ⟨foldl_max_mem t a, le_foldl_max t a⟩

/-! ### Helper lemmas: the best-url loop -/

theorem group_dates_sublist (pd : String → Option Int) (hits : List Hit)
    (u : Option String) :
    List.Sublist ((groupOf hits u).filterMap (dOf pd)) (hits.filterMap (dOf pd)) :=
  (List.filter_sublist hits).filterMap (dOf pd)

theorem gmax_le_global (pd : String → Option Int) (hits : List Hit) (M : Int)
    (hub : ∀ x ∈ hits.filterMap (dOf pd), x ≤ M) :
    ∀ u d, gmax pd hits u = some d → d ≤ M := by
  intro u d hg
  have hmem := (of_max?_eq_some _ d hg).1
  exact hub d ((group_dates_sublist pd hits u).mem hmem)

theorem exists_gmax_global (pd : String → Option Int) (hits : List Hit) (M : Int)
    (hmax : (hits.filterMap (dOf pd)).max? = some M) :
    ∃ u ∈ keysOf hits, gmax pd hits u = some M := by
  obtain ⟨hmem, hub⟩ := of_max?_eq_some _ M hmax
  rcases List.mem_filterMap.mp hmem with ⟨h, hh, hd⟩
  refine ⟨urlOf h, ?_, ?_⟩
  · exact (mem_dedupFirst _ _).mpr (List.mem_map_of_mem urlOf hh)
  · apply max?_eq_some_of
    · apply List.mem_filterMap.mpr
      exact ⟨h, List.mem_filter.mpr ⟨hh, decide_eq_true rfl⟩, hd⟩
    · intro x hx
      exact hub x ((group_dates_sublist pd hits (urlOf h)).mem hx)

theorem recencyFold_no_date (pd : String → Option Int) (hits : List Hit)
    (ks : List (Option String)) (acc : Option String × Option Int)
    (hnone : ∀ u ∈ ks, gmax pd hits u = none) :
    ks.foldl (recencyStep pd hits) acc = acc := by
  induction ks generalizing acc with
  | nil => rfl
  | cons u ks ih =>
    show ks.foldl (recencyStep pd hits) (recencyStep pd hits acc u) = acc
    have h1 : gmax pd hits u = none := hnone u (List.mem_cons_self ..)
    have h2 : recencyStep pd hits acc u = acc := by
      simp [recencyStep, h1]
    rw [h2]
    exact ih acc (fun v hv => hnone v (List.mem_cons.mpr (Or.inr hv)))

theorem recencyFold_keep (pd : String → Option Int) (hits : List Hit)
    (ks : List (Option String)) (bu : Option String) (M : Int)
    (hub : ∀ u ∈ ks, ∀ d, gmax pd hits u = some d → d ≤ M) :
    ks.foldl (recencyStep pd hits) (bu, some M) = (bu, some M) := by
  induction ks with
  | nil => rfl
  | cons u ks ih =>
    show ks.foldl (recencyStep pd hits) (recencyStep pd hits (bu, some M) u) = _
    have hstep : recencyStep pd hits (bu, some M) u = (bu, some M) := by
      cases hg : gmax pd hits u with
      | none => simp [recencyStep, hg]
      | some d =>
        have hd : d ≤ M := hub u (List.mem_cons_self ..) d hg
        simp [recencyStep, hg, Int.not_lt.mpr hd]
    rw [hstep]
    exact ih (fun v hv d hg => hub v (List.mem_cons.mpr (Or.inr hv)) d hg)

theorem recencyFold_reach (pd : String → Option Int) (hits : List Hit) (M : Int)
    (pre : List (Option String)) (u : Option String) (post : List (Option String)) :
    ∀ acc : Option String × Option Int,
    gmax pd hits u = some M →
    (∀ v ∈ pre, ∀ d, gmax pd hits v = some d → d < M) →
    (∀ b, acc.2 = some b → b < M) →
    (∀ w ∈ post, ∀ d, gmax pd hits w = some d → d ≤ M) →
    (pre ++ u :: post).foldl (recencyStep pd hits) acc = (u, some M) := by
  induction pre with
  | nil =>
    intro acc hgu _ hacc hpost
    show post.foldl (recencyStep pd hits) (recencyStep pd hits acc u) = _
    have hstep : recencyStep pd hits acc u = (u, some M) := by
      cases hac : acc.2 with
      | none => simp [recencyStep, hgu, hac]
      | some b => simp [recencyStep, hgu, hac, hacc b hac]
    rw [hstep]
    exact recencyFold_keep pd hits post u M hpost
  | cons v pre ih =>
    intro acc hgu hpre hacc hpost
    show (pre ++ u :: post).foldl (recencyStep pd hits) (recencyStep pd hits acc v) = _
    apply ih (recencyStep pd hits acc v) hgu
      (fun w hw => hpre w (List.mem_cons.mpr (Or.inr hw))) ?_ hpost
    intro b hb
    cases hg : gmax pd hits v with
    | none =>
      simp only [recencyStep, hg] at hb
      exact hacc b hb
    | some d =>
      have hdM : d < M := hpre v (List.mem_cons_self ..) d hg
      cases hac : acc.2 with
      | none =>
        simp only [recencyStep, hg, hac] at hb
        rw [← Option.some.inj hb]
        exact hdM
      | some b0 =>
        have hb0 : b0 < M := hacc b0 hac
        by_cases hlt : b0 < d
        · simp only [recencyStep, hg, hac, if_pos hlt] at hb
          rw [← Option.some.inj hb]
          exact hdM
        · simp only [recencyStep, hg, hac, if_neg hlt] at hb
          rw [← Option.some.inj hb]
          exact hb0

theorem exists_first_decomp {α : Type} (p : α → Prop) (l : List α)
    (h : ∃ x ∈ l, p x) :
    ∃ pre x post, l = pre ++ x :: post ∧ p x ∧ ∀ y ∈ pre, ¬ p y := by
  induction l with
  | nil => simp at h
  | cons a l ih =>
    by_cases ha : p a
    · exact ⟨[], a, l, rfl, ha, by simp⟩
    · have h' : ∃ x ∈ l, p x := by
        rcases h with ⟨x, hx, hpx⟩
        rcases List.mem_cons.mp hx with rfl | hxl
        · exact absurd hpx ha
        · exact ⟨x, hxl, hpx⟩
      rcases ih h' with ⟨pre, x, post, hl, hpx, hpre⟩
      refine ⟨a :: pre, x, post, by rw [hl, List.cons_append], hpx, ?_⟩
      intro y hy
      rcases List.mem_cons.mp hy with rfl | hyl
      · exact ha
      · exact hpre y hyl

/-- The best-url loop from the all-`None` start selects the first group key
(in first-occurrence order) whose group max equals the global maximum of the
parseable dates, and records that maximum as the best date. -/
theorem recencyFold_first (pd : String → Option Int) (hits : List Hit) (M : Int)
    (hmax : (hits.filterMap (dOf pd)).max? = some M) :
    ∃ pre post, keysOf hits = pre ++ (recencyFold pd hits).1 :: post ∧
      gmax pd hits (recencyFold pd hits).1 = some M ∧
      (∀ w ∈ pre, ¬ gmax pd hits w = some M) ∧
      (recencyFold pd hits).2 = some M := by
  have hub := (of_max?_eq_some _ M hmax).2
  obtain ⟨u0, hu0mem, hu0g⟩ := exists_gmax_global pd hits M hmax
  obtain ⟨pre, w, post, hdecomp, hpw, hpre⟩ :=
    exists_first_decomp (fun u => gmax pd hits u = some M) (keysOf hits)
      ⟨u0, hu0mem, hu0g⟩
  have hfold : recencyFold pd hits = (w, some M) := by
    unfold recencyFold
    rw [hdecomp]
    apply recencyFold_reach pd hits M pre w post (none, none) hpw ?_ ?_ ?_
    · intro v hv d hg
      have hle : d ≤ M := gmax_le_global pd hits M hub v d hg
      rcases lt_or_eq_of_le hle with hlt | heq
      · exact hlt
      · exact absurd (heq ▸ hg) (hpre v hv)
    · intro b hb
      simp at hb
    · intro ww hw d hg
      exact gmax_le_global pd hits M hub ww d hg
  refine ⟨pre, post, ?_, ?_, hpre, ?_⟩
  · rw [hfold]
    exact hdecomp
  · rw [hfold]
    exact hpw
  · rw [hfold]

/-! ### Claim C1: most-recent selection -/

/-- C1 (amended): with most-recent selection requested, if no candidate has a
parseable filing date the candidate set is left unchanged (no error); if the
parseable dates have maximum `M`, the winning group key `w` (a group whose
maximum parseable date equals `M`) determines the outcome: the candidates are
replaced by exactly `w`'s group when `w` is a non-null non-empty url, and are
left unchanged when `w` is null or empty (`recencyReplace` spells out this
truthiness proviso, which `if best_url:` imposes in ask.py line 98). -/
theorem claim_C1 (pd : String → Option Int) (hits : List Hit) :
    (hits.filterMap (dOf pd) = [] → applyRecent pd true hits = hits) ∧
    (∀ M : Int, (hits.filterMap (dOf pd)).max? = some M →
      ∃ w, w ∈ keysOf hits ∧ gmax pd hits w = some M ∧
        applyRecent pd true hits = recencyReplace hits w) := by
  constructor
  · intro hnil
    have hnone : ∀ u ∈ keysOf hits, gmax pd hits u = none := by
      intro u _
      unfold gmax
      have hsub := group_dates_sublist pd hits u
      rw [hnil] at hsub
      rw [List.sublist_nil.mp hsub]
      rfl
    have hfold : recencyFold pd hits = (none, none) :=
      recencyFold_no_date pd hits (keysOf hits) (none, none) hnone
    simp [applyRecent, hfold]
  · intro M hmax
    obtain ⟨pre, post, hdecomp, hgw, _, _⟩ := recencyFold_first pd hits M hmax
    refine ⟨(recencyFold pd hits).1, ?_, hgw, ?_⟩
    · rw [hdecomp]
      exact List.mem_append.mpr (Or.inr (List.mem_cons_self ..))
    · cases hf : (recencyFold pd hits).1 with
      | none => simp [applyRecent, recencyReplace, hf]
      | some u => by_cases hu : u = "" <;> simp [applyRecent, recencyReplace, hf, hu]

/-- Witness for C1 at a concrete input with a parseable date. -/
theorem claim_C1_witness :
    (hitsCexC1.filterMap (dOf pdEx)).max? = some 2 ∧
    (∃ w, w ∈ keysOf hitsCexC1 ∧ gmax pdEx hitsCexC1 w = some 2 ∧
      applyRecent pdEx true hitsCexC1 = recencyReplace hitsCexC1 w) :=
  ⟨by decide, (claim_C1 pdEx hitsCexC1).2 2 (by decide)⟩

/-- C1 counterexample: on `hitsCexC1` the group with the latest parseable
filing date is the null-url group (and it is the only group achieving the
maximum), yet the candidate set is *not* replaced by that group — it stays
unchanged and still spans two distinct source urls.  This refutes the claim
as stated ("…replaces the candidate set with exactly the chunks of the group
whose maximum parseable filing_date is latest … when at least one group has a
parseable date"). -/
theorem claim_C1_counterexample :
    (hitsCexC1.filterMap (dOf pdEx)).max? = some 2 ∧
    gmax pdEx hitsCexC1 none = some 2 ∧
    (∀ u ∈ keysOf hitsCexC1, gmax pdEx hitsCexC1 u = some 2 → u = none) ∧
    applyRecent pdEx true hitsCexC1 = hitsCexC1 ∧
    ¬ applyRecent pdEx true hitsCexC1 = groupOf hitsCexC1 none ∧
    (applyRecent pdEx true hitsCexC1).map urlOf = [none, some "u"] := by
  decide

/-! ### Claim C5: tie-break of most-recent selection -/

/-- C5: whenever two or more recency groups tie on the maximal parseable
filing date, the best-url loop selects the group key encountered first in
candidate (hit) order (group keys iterate in first-occurrence order because
Python dicts preserve insertion order): the selected key splits the key list
so that no earlier key's group achieves the maximum.  The selection is a pure
function of the hit order (deterministic), and when the selected key is a
truthy url the candidate set becomes exactly that group. -/
theorem claim_C5 (pd : String → Option Int) (hits : List Hit) (M : Int)
    (u v : Option String) (hu : u ∈ keysOf hits) (hv : v ∈ keysOf hits)
    (hne : u ≠ v) (hgu : gmax pd hits u = some M) (hgv : gmax pd hits v = some M)
    (hmax : (hits.filterMap (dOf pd)).max? = some M) :
    ∃ pre post, keysOf hits = pre ++ (recencyFold pd hits).1 :: post ∧
      gmax pd hits (recencyFold pd hits).1 = some M ∧
      (∀ w ∈ pre, ¬ gmax pd hits w = some M) ∧
      (recencyFold pd hits).2 = some M ∧
      (∀ s, (recencyFold pd hits).1 = some s → s ≠ "" →
        applyRecent pd true hits = groupOf hits (some s)) := by
  obtain ⟨pre, post, hdecomp, hgw, hpre, hsnd⟩ := recencyFold_first pd hits M hmax
  refine ⟨pre, post, hdecomp, hgw, hpre, hsnd, ?_⟩
  intro s hs hsne
  simp [applyRecent, hs, hsne]

/-- Witness for C5 at a concrete tie: two groups ("a" first, "b" second) with
the same maximal date. -/
theorem claim_C5_witness :
    ∃ pre post, keysOf hitsTie = pre ++ (recencyFold pdEx hitsTie).1 :: post ∧
      gmax pdEx hitsTie (recencyFold pdEx hitsTie).1 = some 1 ∧
      (∀ w ∈ pre, ¬ gmax pdEx hitsTie w = some 1) ∧
      (recencyFold pdEx hitsTie).2 = some 1 ∧
      (∀ s, (recencyFold pdEx hitsTie).1 = some s → s ≠ "" →
        applyRecent pdEx true hitsTie = groupOf hitsTie (some s)) :=
  claim_C5 pdEx hitsTie 1 (some "a") (some "b") (by decide) (by decide)
    (by decide) (by decide) (by decide) (by decide)

/-! ### Helper lemmas: window counting for the chunker -/

theorem numWins_zero (cs step : Nat) : numWins cs step 0 = 0 := by
  simp [numWins]

theorem numWins_last (cs step n : Nat) (h1 : 1 ≤ step) (hn : 1 ≤ n) (hcs : n ≤ cs) :
    numWins cs step n = 1 := by
  unfold numWins
  rw [if_neg (by omega)]
  have h2 : n - cs = 0 := by omega
  rw [h2, Nat.div_eq_of_lt (by omega)]

theorem numWins_rec (cs step n : Nat) (h1 : 1 ≤ step) (hstep : step ≤ cs) (hn : cs < n) :
    numWins cs step n = numWins cs step (n - step) + 1 := by
  unfold numWins
  rw [if_neg (by omega), if_neg (by omega)]
  have ha : 1 ≤ n - cs := by omega
  have hns : n - step - cs = n - cs - step := by omega
  rw [hns]
  by_cases hcase : n - cs ≤ step
  · have h2 : n - cs - step = 0 := by omega
    have h4 : n - cs + step - 1 = (n - cs - 1) + step := by omega
    rw [h2, h4, Nat.add_div_right _ (by omega),
      Nat.div_eq_of_lt (show n - cs - 1 < step by omega),
      Nat.div_eq_of_lt (show 0 + step - 1 < step by omega)]
  · have h4 : n - cs + step - 1 = (n - cs - 1) + step := by omega
    rw [h4, Nat.add_div_right _ (by omega)]
    have h5 : n - cs - step + step - 1 = (n - cs - step - 1) + step := by omega
    rw [h5, Nat.add_div_right _ (by omega)]
    have h6 : n - cs - 1 = (n - cs - step - 1) + step := by omega
    rw [h6, Nat.add_div_right _ (by omega)]

theorem window_take (text : List Char) (start cs : Nat) :
    (text.drop start).take (min (start + cs) text.length - start)
      = (text.drop start).take cs := by
  by_cases hc : start + cs ≤ text.length
  · have h : min (start + cs) text.length - start = cs := by omega
    rw [h]
  · have hm : min (start + cs) text.length = text.length := by omega
    rw [hm]
    have h1 : (text.drop start).take (text.length - start) = text.drop start := by
      conv_lhs =>
        rw [show text.length - start = (text.drop start).length from
          (List.length_drop ..).symm]
      exact List.take_length ..
    have h2 : (text.drop start).take cs = text.drop start :=
      List.take_of_length_le (by rw [List.length_drop]; omega)
    rw [h1, h2]

/-- The loop of `chunk_text`, started at position `start` with enough fuel,
produces exactly the spec-side windows: one window per `numWins` count,
window `i` starting at `start + i * (chunk_size - overlap)` and spanning up
to `chunk_size` characters, trimmed, whitespace-only windows dropped. -/
theorem chunkAux_spec (text : List Char) (cs ov : Nat) (hov : ov < cs) :
    ∀ fuel start, text.length - start ≤ fuel →
      chunkAux text cs ov fuel start =
        some (((List.range (numWins cs (cs - ov) (text.length - start))).map
          (fun i => stripChars ((text.drop (start + i * (cs - ov))).take cs))).filter
          (fun c => !c.isEmpty)) := by
  intro fuel
  induction fuel with
  | zero =>
    intro start hle
    have hnlt : ¬ start < text.length := by omega
    have hz : text.length - start = 0 := by omega
    simp [chunkAux, hnlt, hz, numWins_zero]
  | succ fuel ih =>
    intro start hle
    by_cases hlt : start < text.length
    · have hunfold : chunkAux text cs ov (fuel + 1) start =
          if start < text.length then
            (if min (start + cs) text.length = text.length then some []
             else chunkAux text cs ov fuel (min (start + cs) text.length - ov)).map
              (fun r => if (stripChars ((text.drop start).take
                            (min (start + cs) text.length - start))).isEmpty then r
                        else stripChars ((text.drop start).take
                            (min (start + cs) text.length - start)) :: r)
          else some [] := rfl
      rw [hunfold, if_pos hlt, window_take]
      by_cases hend : min (start + cs) text.length = text.length
      · rw [if_pos hend]
        have hle1 : 1 ≤ text.length - start := by omega
        have hle2 : text.length - start ≤ cs := by omega
        rw [numWins_last cs (cs - ov) (text.length - start) (by omega) hle1 hle2]
        rw [show List.range 1 = [0] from rfl]
        simp only [List.map_cons, List.map_nil, Nat.zero_mul, Nat.add_zero,
          Option.map_some, List.filter_cons, List.filter_nil]
        by_cases hc : (stripChars ((text.drop start).take cs)).isEmpty
        · simp [hc]
        · simp [hc]
      · rw [if_neg hend]
        have hcslt : start + cs < text.length := by omega
        have hstart : min (start + cs) text.length - ov = start + (cs - ov) := by omega
        rw [hstart, ih (start + (cs - ov)) (by omega)]
        have hsub : text.length - (start + (cs - ov))
            = (text.length - start) - (cs - ov) := by omega
        rw [hsub]
        rw [numWins_rec cs (cs - ov) (text.length - start) (by omega) (by omega) (by omega)]
        rw [List.range_succ_eq_map, List.map_cons, List.map_map]
        have hfun : ((fun i => stripChars
              ((text.drop (start + i * (cs - ov))).take cs)) ∘ Nat.succ)
            = fun i => stripChars
              ((text.drop ((start + (cs - ov)) + i * (cs - ov))).take cs) := by
          funext i
          have harith : start + (i + 1) * (cs - ov)
              = (start + (cs - ov)) + i * (cs - ov) := by ring
          simp [Function.comp, Nat.succ_eq_add_one, harith]
        rw [hfun]
        simp only [Nat.zero_mul, Nat.add_zero, Option.map_some, List.filter_cons]
        by_cases hc : (stripChars ((text.drop start).take cs)).isEmpty
        · simp [hc]
        · simp [hc]
    · have hz : text.length - start = 0 := by omega
      simp [chunkAux, hlt, hz, numWins_zero]

/-! ### Claim C8: fixed-window chunking -/

/-- C8: for every document text and `0 ≤ overlap < window`, `chunk_text`
computes exactly the spec-described windows: starts advance by
`window - overlap` (window `i` starts at `i * (window - overlap)`), the final
window is whatever text remains (no padding; `numWins` stops at the first
window reaching the end), and whitespace-only windows are dropped after
trimming. -/
theorem claim_C8 (text : List Char) (cs ov : Nat) (hov : ov < cs) :
    chunk_text text cs ov = some (specChunks text cs ov) := by
  unfold chunk_text specChunks
  rw [chunkAux_spec text cs ov hov (text.length + 1) 0 (by omega)]
  simp

/-- Witness for C8 at a concrete input (window 3, overlap 1 over 5 chars). -/
theorem claim_C8_witness : chunk_text demoText 3 1 = some (specChunks demoText 3 1) :=
  claim_C8 demoText 3 1 (by decide)

/-! ### Claim C9: termination of chunking -/

/-- C9: `chunk_text` terminates for every input string provided
`0 ≤ overlap < chunk_size` (fuel `text.length + 1` suffices: the loop yields
`some`); and the precondition is necessary: with `overlap = chunk_size`
(`2 = 2`) on the 3-character text `divText` the cursor never advances, and the
loop fails to finish at every fuel bound. -/
theorem claim_C9 :
    (∀ (text : List Char) (cs ov : Nat), ov < cs →
      (chunk_text text cs ov).isSome = true) ∧
    (∀ fuel : Nat, chunkAux divText 2 2 fuel 0 = none) := by
  constructor
  · intro text cs ov hov
    rw [chunk_text, chunkAux_spec text cs ov hov (text.length + 1) 0 (by omega)]
    rfl
  · intro fuel
    induction fuel with
    | zero => rfl
    | succ fuel ih =>
      have hunfold : chunkAux divText 2 2 (fuel + 1) 0 =
          if 0 < divText.length then
            (if min (0 + 2) divText.length = divText.length then some []
             else chunkAux divText 2 2 fuel (min (0 + 2) divText.length - 2)).map
              (fun r => if (stripChars ((divText.drop 0).take
                            (min (0 + 2) divText.length - 0))).isEmpty then r
                        else stripChars ((divText.drop 0).take
                            (min (0 + 2) divText.length - 0)) :: r)
          else some [] := rfl
      rw [hunfold]
      have h1 : (0 : Nat) < divText.length := by decide
      have h2 : min (0 + 2) divText.length = (2 : Nat) := by decide
      rw [if_pos h1, h2]
      have h3 : ¬ ((2 : Nat) = divText.length) := by decide
      rw [if_neg h3]
      have h4 : (2 : Nat) - 2 = 0 := rfl
      rw [h4, ih]
      rfl

/-- Witness for C9 at a concrete input (window 4, overlap 1). -/
theorem claim_C9_witness : (chunk_text demoText 4 1).isSome = true :=
  claim_C9.1 demoText 4 1 (by decide)
